import Mathlib

/-!
Verification of the noveltui document model and navigation state machine.

Shallow embedding of the repository sources:
* `chapter.rs`  — chapter segmentation (`parse_lines`)
* `bookmark.rs` — bookmark derivation (`parse_bookmarks`)
* `app.rs`      — the `App` state, navigation commands, bookmark toggling,
                  loading and persisting

Text is modelled at the level of Unicode scalar values: a line is a
`List Char`.  Rust's byte indices coincide with character positions for the
operations used by the code (slicing always happens at the boundary of the
bookmark glyph, a single `char`).
-/

abbrev Line := List Char

/-- Unicode `White_Space` code points, the set used by Rust's
`char::is_whitespace` (and by `str::trim` / `trim_end`). -/
def isWS (c : Char) : Bool :=
  let n := c.toNat
  n = 0x20 || (0x9 ≤ n && n ≤ 0xD) || n = 0x85 || n = 0xA0 || n = 0x1680 ||
  (0x2000 ≤ n && n ≤ 0x200A) || n = 0x2028 || n = 0x2029 || n = 0x202F ||
  n = 0x205F || n = 0x3000

/-- Rust `str::trim_end`: remove trailing whitespace. -/
def trimEnd (l : Line) : Line := (l.reverse.dropWhile isWS).reverse

/-- Rust `str::trim`: remove leading and trailing whitespace. -/
def trim (l : Line) : Line := trimEnd (l.dropWhile isWS)

/-- The decimal digits accepted by the header patterns.  The source regexes
use `\d`; digits that are not ASCII would make `parse::<usize>` fail and
yield chapter number 0, exactly like the overflow case, so the ASCII set is
the faithful carrier of the number semantics. -/
def isDigitCh (c : Char) : Bool := '0' ≤ c && c ≤ '9'

/-- Numeric value of a digit string (what `parse::<usize>` computes before
its range check). -/
def digitsToNat (ds : Line) : Nat :=
  ds.foldl (fun a c => a * 10 + (c.toNat - '0'.toNat)) 0

/-- Models `ds.parse::<usize>().ok().unwrap_or(0)` for a nonempty ASCII digit
string: the parse fails exactly when the value overflows the 64-bit
`usize`, and the code then falls back to 0 (chapter.rs line 24). -/
def parseUsize (ds : Line) : Nat :=
  let v := digitsToNat ds
  if v < 2 ^ 64 then v else 0

/-! ## Rust `str::lines` and `join("\n")` (used by `load_file` / `save_file`) -/

/-- Strip one trailing `'\r'`, applied by `str::lines` to every line that was
terminated by `'\n'`. -/
def stripCR (l : Line) : Line :=
  match l.getLast? with
  | some c => if c = '\r' then l.dropLast else l
  | none => l

/-- Worker for `rustLines`; `cur` holds the reversed current line. -/
def linesAux : Line → Line → List Line
  | cur, [] => if cur = [] then [] else [cur.reverse]
  | cur, c :: rest =>
    if c = '\n' then stripCR cur.reverse :: linesAux [] rest
    else linesAux (c :: cur) rest

/-- Rust `str::lines`: split at `'\n'`, dropping a `'\r'` that immediately
precedes a `'\n'`; a final unterminated segment is a line unless empty. -/
def rustLines (raw : Line) : List Line := linesAux [] raw

/-- Rust `Vec::join("\n")`: the single-`'\n'`-separated concatenation, with
no trailing newline (app.rs `save_file`). -/
def joinNl : List Line → Line
  | [] => []
  | [x] => x
  | x :: y :: xs => x ++ '\n' :: joinNl (y :: xs)

/-! ## Segmenter (`chapter.rs`) -/

structure Chapter where
  number : Nat
  title : Line
  start_line : Nat
  content : List Line
deriving DecidableEq

/-- The structured result of one of the two header regexes: which pattern
matched (`cn`), the digit group (capture 1) and the remainder (capture 2). -/
structure HeaderInfo where
  cn : Bool
  digits : Line
  rest : Line
deriving DecidableEq

/-- Matcher for `^\s*第\s*(\d+)\s*章(?:\s*(.*))?$` — the localized header pattern.
Capture 2 is the text after `章`; the `\s*` that the regex skips before it
is subsumed by the `.trim()` the caller applies, so `rest` stores the raw
remainder. -/
def matchCN (l : Line) : Option HeaderInfo :=
  match l.dropWhile isWS with
  | [] => none
  | c :: l2 =>
    if c = '第' then
      let l3 := l2.dropWhile isWS
      let ds := l3.takeWhile isDigitCh
      if ds = [] then none
      else
        match (l3.dropWhile isDigitCh).dropWhile isWS with
        | c2 :: l5 => if c2 = '章' then some ⟨true, ds, l5⟩ else none
        | [] => none
    else none

/-- Matches one char of `chapter` case-insensitively and returns the rest. -/
def stripCI : Line → Line → Option Line
  | [], l => some l
  | _ :: _, [] => none
  | e :: es, c :: cs => if c.toLower = e then stripCI es cs else none

/-- Characters skipped by `\s*[:\.\s-]*\s*` between the number and the title
remainder of the generic pattern. -/
def isSepEN (c : Char) : Bool := isWS c || c = ':' || c = '.' || c = '-'

/-- Matcher for `(?i)^\s*chapter\s*(\d+)\s*[:\.\s-]*\s*(.*)?$` — the generic header
pattern. -/
def matchEN (l : Line) : Option HeaderInfo :=
  match stripCI "chapter".toList (l.dropWhile isWS) with
  | none => none
  | some l2 =>
    let l3 := l2.dropWhile isWS
    let ds := l3.takeWhile isDigitCh
    if ds = [] then none
    else some ⟨false, ds, (l3.dropWhile isDigitCh).dropWhile isSepEN⟩

/-- Models `re_cn.captures(line).or_else(|| re_en.captures(line))`; the `cn` field
records `re_cn.is_match(line)`. -/
def headerOf (l : Line) : Option HeaderInfo :=
  match matchCN l with
  | some h => some h
  | none => matchEN l

/-- Title label `format!("第{}章", num)` resp. `format!("Chapter {}", num)`. -/
def chapterLabel (cn : Bool) (num : Nat) : Line :=
  if cn then '第' :: (Nat.toDigits 10 num ++ ['章'])
  else "Chapter ".toList ++ Nat.toDigits 10 num

/-- Open a new chapter at index `i` from a matched header line
(chapter.rs lines 24–45). -/
def mkChapterFromHeader (i : Nat) (l : Line) (h : HeaderInfo) : Chapter :=
  let num := parseUsize h.digits
  let restT := trim h.rest
  let title := if restT = [] then chapterLabel h.cn num
               else chapterLabel h.cn num ++ ' ' :: restT
  ⟨num, title, i, [l]⟩

/-- The scan loop of `parse_lines`: `i` is the current line index, the
`Option Chapter` is the chapter currently being built. -/
def parseGo : Nat → Option Chapter → List Line → List Chapter
  | _, cur, [] => (match cur with | some c => [c] | none => [])
  | i, cur, l :: ls =>
    match headerOf l with
    | some h =>
      (match cur with | some c => [c] | none => []) ++
        parseGo (i + 1) (some (mkChapterFromHeader i l h)) ls
    | none =>
      match cur with
      | some c => parseGo (i + 1) (some { c with content := c.content ++ [l] }) ls
      | none => parseGo (i + 1) none ls

/-- Model of `chapter.rs::parse_lines`. -/
def parse_lines (lines : List Line) : List Chapter := parseGo 0 none lines

/-! ## Bookmark Index (`bookmark.rs`) -/

/-- The `BOOKMARK_SYMBOL` constant is the single glyph `🔖`. -/
def BOOKMARK_SYMBOL : Char := '🔖'

structure Bookmark where
  chapter_index : Nat
  line_in_chapter : Nat
  line_content : Line
deriving DecidableEq

/-- One line of the scan in `parse_bookmarks`: a line qualifies when its
trimmed text starts with the glyph; the stored content is the trimmed text
with the glyph stripped and trimmed again. -/
def bookmarkOfLine (l : Line) : Option Line :=
  match trim l with
  | c :: rest => if c = BOOKMARK_SYMBOL then some (trim rest) else none
  | [] => none

/-- Model of `bookmark.rs::parse_bookmarks`. -/
def parse_bookmarks (chapters : List Chapter) : List Bookmark :=
  (chapters.enum.map (fun ic =>
    ic.2.content.enum.filterMap (fun jl =>
      match bookmarkOfLine jl.2 with
      | some c => some ⟨ic.1, jl.1, c⟩
      | none => none))).flatten

/-- Spec §8 Scenario A: the embedded segmenter reproduces the documented
two-chapter parse exactly, validating the regex model. -/
lemma scenarioA_check :
    (parse_lines (["Chapter 1 Intro", "hello", "Chapter 2", "world"].map String.toList)).map
      (fun c => (c.number, c.title, c.start_line, c.content)) =
    [(1, "Chapter 1 Intro".toList, 0, ["Chapter 1 Intro".toList, "hello".toList]),
     (2, "Chapter 2".toList, 2, ["Chapter 2".toList, "world".toList])] := by decide

/-- Spec §8 Scenario B: the localized header parses with a synthesized
title and two content lines. -/
lemma scenarioB_check :
    (parse_lines (["第1章", "你好"].map String.toList)).map
      (fun c => (c.title, c.content.length)) = [("第1章".toList, 2)] := by decide

/-! ## App state and navigation (`app.rs`) -/

inductive Focus
  | Toc
  | Content
  | Bookmark
deriving DecidableEq

/-- The fields of `App` that belong to the document model and navigation
state machine.  `ratatui::ListState` contributes exactly its selected index,
modelled as `Option Nat`.  The file path, terminal handles and the pending
startup jump options are passed separately where needed. -/
structure App where
  running : Bool
  lines : List Line
  view_offset : Nat
  chapters : List Chapter
  toc_state : Option Nat
  view_lines : List Line
  content_state : Option Nat
  focus : Focus
  bookmarks : List Bookmark
  bookmark_state : Option Nat
  show_bookmark_menu : Bool
  show_tilte_footer : Bool
deriving DecidableEq

/-- Model of `App::new` (before `load_file` runs). -/
def App.new : App :=
  { running := false
    lines := []
    view_offset := 0
    chapters := []
    toc_state := some 0
    view_lines := []
    content_state := some 0
    focus := .Toc
    bookmarks := []
    bookmark_state := none
    show_bookmark_menu := false
    show_tilte_footer := true }

/-- Model of `App::select_chapter`. -/
def select_chapter (idx : Nat) (s : App) : App :=
  match s.chapters[idx]? with
  | some ch =>
    { s with
      view_lines := ch.content
      view_offset := 0
      toc_state := some idx
      content_state := if ch.content = [] then none else some 0 }
  | none => s

/-- Model of `App::load_file`, parameterised by the decoded file content (the read
and charset detection are the external storage reader of spec §6). -/
def load_model (raw : Line) : App :=
  let lines := rustLines raw
  let chapters := parse_lines lines
  let bookmarks := parse_bookmarks chapters
  let s : App :=
    { App.new with
      lines := lines
      chapters := chapters
      bookmarks := bookmarks }
  let s := if bookmarks = [] then s else { s with bookmark_state := some 0 }
  if chapters = [] then
    { s with
      toc_state := none
      view_lines := lines
      view_offset := 0
      content_state := if lines = [] then none else some 0 }
  else
    select_chapter 0 { s with toc_state := some 0 }

/-- Model of `App::switch_focus_left`. -/
def switch_focus_left (s : App) : App :=
  { s with focus :=
      match s.focus with
      | .Bookmark => .Content
      | .Content => .Toc
      | .Toc => if s.show_bookmark_menu then .Bookmark else .Content }

/-- Model of `App::jump_to_selected_bookmark`. -/
def jump_to_selected_bookmark (s : App) : App :=
  match s.bookmark_state with
  | some sel =>
    match s.bookmarks[sel]? with
    | some b => { select_chapter b.chapter_index s with content_state := some b.line_in_chapter }
    | none => s
  | none => s

/-- Model of `App::switch_focus_right`. -/
def switch_focus_right (s : App) : App :=
  match s.focus with
  | .Toc => { s with focus := .Content }
  | .Content =>
    if s.show_bookmark_menu then
      { jump_to_selected_bookmark s with focus := .Bookmark }
    else { s with focus := .Toc }
  | .Bookmark => { s with focus := .Toc }

/-- Model of `App::move_toc_up`. -/
def move_toc_up (s : App) : App :=
  match s.toc_state with
  | some sel =>
    if 0 < sel then select_chapter (sel - 1) s
    else if s.chapters = [] then s
    else select_chapter (s.chapters.length - 1) s
  | none => s

/-- Model of `App::move_toc_down`. -/
def move_toc_down (s : App) : App :=
  match s.toc_state with
  | some sel =>
    if sel + 1 < s.chapters.length then select_chapter (sel + 1) s
    else if s.chapters = [] then s
    else select_chapter 0 s
  | none => s

/-- Model of `App::move_content_up`. -/
def move_content_up (s : App) : App :=
  match s.content_state with
  | some sel =>
    if 0 < sel then { s with content_state := some (sel - 1) }
    else
      match s.toc_state with
      | some toc_sel =>
        if 0 < toc_sel then
          let s2 := select_chapter (toc_sel - 1) s
          if s2.view_lines = [] then s2
          else { s2 with content_state := some (s2.view_lines.length - 1) }
        else s
      | none => s
  | none => if s.view_lines = [] then s else { s with content_state := some 0 }

/-- Model of `App::move_content_down`. -/
def move_content_down (s : App) : App :=
  match s.content_state with
  | some sel =>
    if sel + 1 < s.view_lines.length then { s with content_state := some (sel + 1) }
    else
      match s.toc_state with
      | some toc_sel =>
        if toc_sel + 1 < s.chapters.length then select_chapter (toc_sel + 1) s else s
      | none => s
  | none => if s.view_lines = [] then s else { s with content_state := some 0 }

/-- Model of `App::move_bookmark_up`. -/
def move_bookmark_up (s : App) : App :=
  match s.bookmark_state with
  | some sel =>
    if 0 < sel then jump_to_selected_bookmark { s with bookmark_state := some (sel - 1) }
    else s
  | none => s

/-- Model of `App::move_bookmark_down`. -/
def move_bookmark_down (s : App) : App :=
  match s.bookmark_state with
  | some sel =>
    if sel + 1 < s.bookmarks.length then
      jump_to_selected_bookmark { s with bookmark_state := some (sel + 1) }
    else s
  | none => s

/-- Model of `App::handle_enter`. -/
def handle_enter (s : App) : App :=
  if s.focus = .Toc then
    match s.toc_state with
    | some idx => { select_chapter idx s with focus := .Content }
    | none => s
  else s

/-- Model of `App::toggle_bookmark_menu`. -/
def toggle_bookmark_menu (s : App) : App :=
  let shown := !s.show_bookmark_menu
  { s with
    show_bookmark_menu := shown
    focus := if shown then .Bookmark else .Content }

/-- The in-place line edit of `toggle_bookmark_at_current_line`
(app.rs lines 626–636): remove the glyph from the end if present,
otherwise trim trailing whitespace and append `" 🔖"`. -/
def rlastBM : Line → Option Nat
  | [] => none
  | c :: rest =>
    match rlastBM rest with
    | some j => some (j + 1)
    | none => if c = BOOKMARK_SYMBOL then some 0 else none

/-- The new text of the toggled line (the branch on
`line.trim().ends_with(BOOKMARK_SYMBOL)`); `rlastBM` is `line.rfind`. -/
def toggleLine (line : Line) : Line :=
  if (trim line).getLast? = some BOOKMARK_SYMBOL then
    match rlastBM line with
    | some pos => trimEnd (line.take pos)
    | none => line
  else trimEnd line ++ [' ', BOOKMARK_SYMBOL]

/-- The Document-Store part of `toggle_bookmark_at_current_line`, acting at
an explicit chapter index and line offset (the code reads them from the two
cursors).  `List.set` is a no-op out of range, exactly like the `get_mut`
guards in the source. -/
def toggle_core (ci li : Nat) (s : App) : App :=
  match s.chapters[ci]? with
  | none => s
  | some ch =>
    match ch.content[li]? with
    | none => s
    | some line =>
      if trim line = [] then s
      else
        let newLine := toggleLine line
        let chapters2 := s.chapters.set ci { ch with content := ch.content.set li newLine }
        let bms := parse_bookmarks chapters2
        { s with
          chapters := chapters2
          view_lines := s.view_lines.set li newLine
          lines := s.lines.set (ch.start_line + li) newLine
          bookmarks := bms
          bookmark_state :=
            match s.bookmark_state with
            | none => if bms = [] then none else some 0
            | some sel =>
              if bms.length ≤ sel then
                (if bms = [] then none else some (bms.length - 1))
              else some sel }

/-- Model of `App::toggle_bookmark_at_current_line` (the in-memory effect; the
`save_file` call is modelled by `toggle_bookmark_full`). -/
def toggle_bookmark_at_current_line (s : App) : App :=
  if s.focus = .Content then
    match s.toc_state, s.content_state with
    | some ci, some li => toggle_core ci li s
    | _, _ => s
  else s

/-- Whether the toggle reaches its `save_file` call (it is skipped when the
focus or a selection is missing, the chapter or line does not exist, or the
line is empty after trimming). -/
def toggle_reaches_save (s : App) : Bool :=
  if s.focus = .Content then
    match s.toc_state, s.content_state with
    | some ci, some li =>
      match s.chapters[ci]? with
      | none => false
      | some ch =>
        match ch.content[li]? with
        | none => false
        | some line => !(trim line = [])
    | _, _ => false
  else false

/-- Model of `save_file`: serialise the line buffer, newline-joined. -/
def save_output (s : App) : Line := joinNl s.lines

/-- The diagnostic printed on a failed persist (app.rs line 666). -/
def persistFailureMsg : String := "Error saving file after toggling bookmark."

/-- The whole toggle command including the persist attempt.  `persistOk`
is the outcome of `fs::write`; the second component is the diagnostic
side channel (`eprintln!`).  `save_file` takes `&self`, so the state does
not depend on the outcome. -/
def toggle_bookmark_full (persistOk : Bool) (s : App) : App × List String :=
  let s2 := toggle_bookmark_at_current_line s
  (s2, if toggle_reaches_save s && !persistOk then [persistFailureMsg] else [])

/-- The abstract command set consumed from the input source (spec §6),
dispatched exactly as `handle_crossterm_event`. -/
inductive Command
  | Quit
  | FocusLeft
  | FocusRight
  | MoveUp
  | MoveDown
  | Activate
  | ToggleBookmarkPane
  | ToggleBookmarkAtCursor
  | ToggleTitleFooter
deriving DecidableEq

/-- Dispatch of `handle_move_up` / `handle_move_down` by focus. -/
def handle_move_up (s : App) : App :=
  match s.focus with
  | .Toc => move_toc_up s
  | .Content => move_content_up s
  | .Bookmark => move_bookmark_up s

def handle_move_down (s : App) : App :=
  match s.focus with
  | .Toc => move_toc_down s
  | .Content => move_content_down s
  | .Bookmark => move_bookmark_down s

/-- One step of `handle_crossterm_event`. -/
def step (c : Command) (s : App) : App :=
  match c with
  | .Quit => { s with running := false }
  | .FocusLeft => switch_focus_left s
  | .FocusRight => switch_focus_right s
  | .MoveUp => handle_move_up s
  | .MoveDown => handle_move_down s
  | .Activate => handle_enter s
  | .ToggleBookmarkPane => toggle_bookmark_menu s
  | .ToggleBookmarkAtCursor => toggle_bookmark_at_current_line s
  | .ToggleTitleFooter => { s with show_tilte_footer := !s.show_tilte_footer }

def runCmds (cmds : List Command) (s : App) : App :=
  cmds.foldl (fun t c => step c t) s

/-! ## Startup jumps (`handle_initial_jumps`) -/

def chapterJumpMsg (avail req : Nat) : String :=
  "Only have " ++ toString avail ++ " Chapter(s). Cannot jump to chapter " ++
    toString req ++ "."

def bookmarkJumpMsg (avail req : Nat) : String :=
  "Only have " ++ toString avail ++ " Bookmark(s). Cannot jump to bookmark " ++
    toString req ++ "."

/-- Model of `App::handle_initial_jumps`.  An `Except.error` is the fatal
`color_eyre` error that aborts `run`; the `(Some, Some)` case is the
source's `unreachable!()` panic, also fatal. -/
def handle_initial_jumps (chJump bmJump : Option Nat) (s : App) : Except String App :=
  match chJump, bmJump with
  | some ci, none =>
    if ci < s.chapters.length then
      .ok { select_chapter (ci - 1) s with focus := .Content }
    else .error (chapterJumpMsg s.chapters.length ci)
  | none, some bi =>
    if bi < s.bookmarks.length then
      .ok { jump_to_selected_bookmark { s with bookmark_state := some (bi - 1) } with
              focus := .Content }
    else .error (bookmarkJumpMsg s.bookmarks.length bi)
  | none, none => .ok s
  | some _, some _ => .error "unreachable"

/-- Model of `App::run`: load, perform the startup jumps, and only on success enter
the event loop (modelled by the command fold).  An error short-circuits
before any command is consumed. -/
def run_model (raw : Line) (chJump bmJump : Option Nat) (cmds : List Command) :
    Except String App :=
  match handle_initial_jumps chJump bmJump (load_model raw) with
  | .error e => .error e
  | .ok s => .ok (runCmds cmds { s with running := true })

/-! ## Helper lemmas: focus and pane visibility -/

lemma select_chapter_focus_menu (idx : Nat) (s : App) :
    (select_chapter idx s).focus = s.focus ∧
    (select_chapter idx s).show_bookmark_menu = s.show_bookmark_menu := by
  unfold select_chapter
  cases s.chapters[idx]? <;> simp

lemma jump_focus_menu (s : App) :
    (jump_to_selected_bookmark s).focus = s.focus ∧
    (jump_to_selected_bookmark s).show_bookmark_menu = s.show_bookmark_menu := by
  unfold jump_to_selected_bookmark
  cases hb : s.bookmark_state with
  | none => simp
  | some sel =>
    cases hbm : s.bookmarks[sel]? with
    | none => simp [hbm]
    | some b => simpa [hbm] using select_chapter_focus_menu b.chapter_index s

lemma move_toc_up_focus_menu (s : App) :
    (move_toc_up s).focus = s.focus ∧
    (move_toc_up s).show_bookmark_menu = s.show_bookmark_menu := by
  unfold move_toc_up
  cases s.toc_state with
  | none => simp
  | some sel =>
    by_cases h1 : 0 < sel <;> by_cases h2 : s.chapters = [] <;>
      simp [h1, h2, select_chapter_focus_menu]

lemma move_toc_down_focus_menu (s : App) :
    (move_toc_down s).focus = s.focus ∧
    (move_toc_down s).show_bookmark_menu = s.show_bookmark_menu := by
  unfold move_toc_down
  cases s.toc_state with
  | none => simp
  | some sel =>
    by_cases h1 : sel + 1 < s.chapters.length <;> by_cases h2 : s.chapters = [] <;>
      simp [h1, h2, select_chapter_focus_menu]

lemma move_content_up_focus_menu (s : App) :
    (move_content_up s).focus = s.focus ∧
    (move_content_up s).show_bookmark_menu = s.show_bookmark_menu := by
  unfold move_content_up
  cases s.content_state with
  | none => by_cases h : s.view_lines = [] <;> simp [h]
  | some sel =>
    by_cases h1 : 0 < sel
    · simp [h1]
    · simp only [h1, if_false]
      cases s.toc_state with
      | none => simp
      | some toc_sel =>
        by_cases h2 : 0 < toc_sel
        · by_cases h3 : (select_chapter (toc_sel - 1) s).view_lines = [] <;>
            simp [h2, h3, select_chapter_focus_menu]
        · simp [h2]

lemma move_content_down_focus_menu (s : App) :
    (move_content_down s).focus = s.focus ∧
    (move_content_down s).show_bookmark_menu = s.show_bookmark_menu := by
  unfold move_content_down
  cases s.content_state with
  | none => by_cases h : s.view_lines = [] <;> simp [h]
  | some sel =>
    by_cases h1 : sel + 1 < s.view_lines.length
    · simp [h1]
    · simp only [h1, if_false]
      cases s.toc_state with
      | none => simp
      | some toc_sel =>
        by_cases h2 : toc_sel + 1 < s.chapters.length <;>
          simp [h2, select_chapter_focus_menu]

lemma move_bookmark_up_focus_menu (s : App) :
    (move_bookmark_up s).focus = s.focus ∧
    (move_bookmark_up s).show_bookmark_menu = s.show_bookmark_menu := by
  unfold move_bookmark_up
  cases s.bookmark_state with
  | none => simp
  | some sel =>
    by_cases h : 0 < sel
    · have := jump_focus_menu { s with bookmark_state := some (sel - 1) }
      simp [h] at this ⊢
      exact this
    · simp [h]

lemma move_bookmark_down_focus_menu (s : App) :
    (move_bookmark_down s).focus = s.focus ∧
    (move_bookmark_down s).show_bookmark_menu = s.show_bookmark_menu := by
  unfold move_bookmark_down
  cases s.bookmark_state with
  | none => simp
  | some sel =>
    by_cases h : sel + 1 < s.bookmarks.length
    · have := jump_focus_menu { s with bookmark_state := some (sel + 1) }
      simp [h] at this ⊢
      exact this
    · simp [h]

lemma toggle_core_focus_menu (ci li : Nat) (s : App) :
    (toggle_core ci li s).focus = s.focus ∧
    (toggle_core ci li s).show_bookmark_menu = s.show_bookmark_menu := by
  unfold toggle_core
  cases h1 : s.chapters[ci]? with
  | none => simp [h1]
  | some ch =>
    cases h2 : ch.content[li]? with
    | none => simp [h1, h2]
    | some line =>
      by_cases h3 : trim line = [] <;> simp [h1, h2, h3]

lemma toggle_at_line_focus_menu (s : App) :
    (toggle_bookmark_at_current_line s).focus = s.focus ∧
    (toggle_bookmark_at_current_line s).show_bookmark_menu = s.show_bookmark_menu := by
  unfold toggle_bookmark_at_current_line
  by_cases h : s.focus = .Content
  · simp only [h, if_true]
    cases s.toc_state <;> cases s.content_state <;>
      simp [toggle_core_focus_menu, h]
  · simp [h]

lemma handle_move_up_focus_menu (s : App) :
    (handle_move_up s).focus = s.focus ∧
    (handle_move_up s).show_bookmark_menu = s.show_bookmark_menu := by
  unfold handle_move_up
  cases hf : s.focus <;>
    simp [hf, move_toc_up_focus_menu, move_content_up_focus_menu, move_bookmark_up_focus_menu]

lemma handle_move_down_focus_menu (s : App) :
    (handle_move_down s).focus = s.focus ∧
    (handle_move_down s).show_bookmark_menu = s.show_bookmark_menu := by
  unfold handle_move_down
  cases hf : s.focus <;>
    simp [hf, move_toc_down_focus_menu, move_content_down_focus_menu, move_bookmark_down_focus_menu]

/-- The reachability invariant of spec §4.4: `Bookmark` focus implies the
pane is visible. -/
def FocusInv (s : App) : Prop := s.focus = .Bookmark → s.show_bookmark_menu = true

lemma step_preserves_FocusInv (c : Command) (s : App) (h : FocusInv s) :
    FocusInv (step c s) := by
  unfold FocusInv at *
  cases c with
  | Quit => simpa using h
  | FocusLeft =>
    unfold step switch_focus_left
    cases hf : s.focus with
    | Toc =>
      by_cases hm : s.show_bookmark_menu <;> simp [hm]
    | Content => simp
    | Bookmark => simp
  | FocusRight =>
    unfold step switch_focus_right
    cases hf : s.focus with
    | Toc => simp
    | Content =>
      by_cases hm : s.show_bookmark_menu
      · simp [hm, (jump_focus_menu s).2]
      · simp [hm]
    | Bookmark => simp
  | MoveUp =>
    intro hb
    have hfm := handle_move_up_focus_menu s
    rw [step] at hb ⊢
    rw [hfm.1] at hb
    rw [hfm.2]
    exact h hb
  | MoveDown =>
    intro hb
    have hfm := handle_move_down_focus_menu s
    rw [step] at hb ⊢
    rw [hfm.1] at hb
    rw [hfm.2]
    exact h hb
  | Activate =>
    unfold step handle_enter
    by_cases hf : s.focus = .Toc
    · simp only [hf, if_true]
      cases s.toc_state with
      | none => simpa using h
      | some idx => simp
    · simp only [hf, if_false]
      exact h
  | ToggleBookmarkPane =>
    unfold step toggle_bookmark_menu
    by_cases hm : s.show_bookmark_menu <;> simp [hm]
  | ToggleBookmarkAtCursor =>
    intro hb
    have hfm := toggle_at_line_focus_menu s
    rw [step] at hb ⊢
    rw [hfm.1] at hb
    rw [hfm.2]
    exact h hb
  | ToggleTitleFooter => simpa using h

lemma runCmds_preserves_FocusInv (cmds : List Command) (s : App) (h : FocusInv s) :
    FocusInv (runCmds cmds s) := by
  induction cmds generalizing s with
  | nil => exact h
  | cons c cs ih =>
    have : runCmds (c :: cs) s = runCmds cs (step c s) := rfl
    rw [this]
    exact ih _ (step_preserves_FocusInv c s h)

/-! ## Claim theorems: navigation state machine -/

/-- C5: In every state reachable from the initial state (focus `Toc`,
bookmark pane hidden) by any sequence of commands, focus is `Bookmark` only
if the bookmark pane is visible; and toggling the pane's visibility off
while focus is `Bookmark` sets focus to `Content`. -/
theorem C5_bookmark_focus_requires_pane (s0 : App) (cmds : List Command)
    (hfoc : s0.focus = .Toc) :
    ((runCmds cmds s0).focus = .Bookmark →
      (runCmds cmds s0).show_bookmark_menu = true) ∧
    (∀ s : App, s.show_bookmark_menu = true → s.focus = .Bookmark →
      (step .ToggleBookmarkPane s).focus = .Content ∧
      (step .ToggleBookmarkPane s).show_bookmark_menu = false) := by
  constructor
  · refine runCmds_preserves_FocusInv cmds s0 ?_
    intro hb
    rw [hfoc] at hb
    cases hb
  · intro s hm _
    unfold step toggle_bookmark_menu
    simp [hm]

/-- Witness for C5 at concrete inputs: after the single command that shows
the pane, focus is `Bookmark` and the pane is visible; toggling the pane
off from that state moves focus to `Content`. -/
theorem C5_bookmark_focus_requires_pane_witness :
    ((runCmds [Command.ToggleBookmarkPane] App.new).focus = .Bookmark →
      (runCmds [Command.ToggleBookmarkPane] App.new).show_bookmark_menu = true) ∧
    ((step .ToggleBookmarkPane (step .ToggleBookmarkPane App.new)).focus = .Content ∧
      (step .ToggleBookmarkPane (step .ToggleBookmarkPane App.new)).show_bookmark_menu = false) :=
  ⟨(C5_bookmark_focus_requires_pane App.new [Command.ToggleBookmarkPane] rfl).1,
   (C5_bookmark_focus_requires_pane App.new [] rfl).2
      (step .ToggleBookmarkPane App.new) (by decide) (by decide)⟩

/-- C7: A failed persist during a bookmark toggle does not escape the
toggle: the resulting in-memory state is exactly the state of a successful
toggle (the pure `toggle_bookmark_at_current_line` effect), and the failure
surfaces only as the diagnostic message on the side channel. -/
theorem C7_persist_failure_is_local (s : App) :
    (toggle_bookmark_full false s).1 = (toggle_bookmark_full true s).1 ∧
    (toggle_bookmark_full false s).1 = toggle_bookmark_at_current_line s ∧
    (toggle_bookmark_full false s).2 =
      (if toggle_reaches_save s then [persistFailureMsg] else []) ∧
    (toggle_bookmark_full true s).2 = [] := by
  refine ⟨rfl, rfl, ?_, ?_⟩ <;>
    by_cases h : toggle_reaches_save s <;> simp [toggle_bookmark_full, h]

/-- C8: Content focus: Move-up on the first line of the first chapter
is a no-op on the entire state, Move-down on the last line of the last
chapter is a no-op; Toc focus: Move-up from index 0 wraps to the last
chapter and Move-down from the last chapter wraps to index 0. -/
theorem C8_boundary_moves (s : App) :
    (s.focus = .Content → s.content_state = some 0 → s.toc_state = some 0 →
      step .MoveUp s = s) ∧
    (s.focus = .Content → s.toc_state = some (s.chapters.length - 1) →
      s.chapters ≠ [] →
      s.content_state = some (s.view_lines.length - 1) → s.view_lines ≠ [] →
      step .MoveDown s = s) ∧
    (s.focus = .Toc → s.toc_state = some 0 → s.chapters ≠ [] →
      (step .MoveUp s).toc_state = some (s.chapters.length - 1)) ∧
    (s.focus = .Toc → s.toc_state = some (s.chapters.length - 1) →
      s.chapters ≠ [] →
      (step .MoveDown s).toc_state = some 0) := by
  refine ⟨?_, ?_, ?_, ?_⟩
  · intro hf hcs hts
    simp [step, handle_move_up, hf, move_content_up, hcs, hts]
  · intro hf hts hchne hcs hvne
    have hv : 0 < s.view_lines.length := List.length_pos.mpr hvne
    have hc : 0 < s.chapters.length := List.length_pos.mpr hchne
    have h1 : ¬(s.view_lines.length - 1 + 1 < s.view_lines.length) := by omega
    have h2 : ¬(s.chapters.length - 1 + 1 < s.chapters.length) := by omega
    simp [step, handle_move_down, hf, move_content_down, hcs, hts, h1, h2]
  · intro hf hts hchne
    have hc : 0 < s.chapters.length := List.length_pos.mpr hchne
    have hch : s.chapters[s.chapters.length - 1]? = some (s.chapters[s.chapters.length - 1]) :=
      List.getElem?_eq_getElem (by omega)
    simp [step, handle_move_up, hf, move_toc_up, hts, hchne, select_chapter, hch]
  · intro hf hts hchne
    have hc : 0 < s.chapters.length := List.length_pos.mpr hchne
    have h2 : ¬(s.chapters.length - 1 + 1 < s.chapters.length) := by omega
    have hch : s.chapters[0]? = some (s.chapters[0]) :=
      List.getElem?_eq_getElem (by omega)
    simp [step, handle_move_down, hf, move_toc_down, hts, hchne, select_chapter, hch, h2]

/-- Witness for C8 on a loaded two-chapter document (and a one-chapter
document for the Content-focus parts). -/
theorem C8_boundary_moves_witness :
    (step .MoveUp (step .Activate (load_model "Chapter 1\nhello".toList)) =
      step .Activate (load_model "Chapter 1\nhello".toList)) ∧
    (step .MoveDown (step .MoveDown (step .Activate (load_model "Chapter 1\nhello".toList))) =
      step .MoveDown (step .Activate (load_model "Chapter 1\nhello".toList))) ∧
    ((step .MoveUp (load_model "Chapter 1\na\nChapter 2\nb".toList)).toc_state = some 1) ∧
    ((step .MoveDown (step .MoveUp (load_model "Chapter 1\na\nChapter 2\nb".toList))).toc_state =
      some 0) :=
  ⟨((C8_boundary_moves _).1 (by decide) (by decide) (by decide)),
   ((C8_boundary_moves _).2.1 (by decide) (by decide) (by decide) (by decide) (by decide)),
   ((C8_boundary_moves _).2.2.1 (by decide) (by decide) (by decide)),
   ((C8_boundary_moves _).2.2.2 (by decide) (by decide) (by decide))⟩

/-- C1 (evidence for a code bug): Toggling the content line `"hello"`
stores `"hello 🔖"` as the claim says, but re-running the Bookmark Index on
the resulting chapters yields the empty list, not one bookmark with content
`"hello"`: `parse_bookmarks` requires the trimmed line to START with the
glyph while the toggle appends the glyph at the END.  Toggling again
restores `"hello"`, and the list is (still) empty. -/
theorem C1_toggled_line_invisible_to_index :
    (toggle_bookmark_at_current_line
        (step .MoveDown (step .Activate (load_model "Chapter 1\nhello".toList)))).lines =
      ["Chapter 1".toList, "hello 🔖".toList] ∧
    parse_bookmarks
      (toggle_bookmark_at_current_line
        (step .MoveDown (step .Activate (load_model "Chapter 1\nhello".toList)))).chapters =
      [] ∧
    (toggle_bookmark_at_current_line
        (step .MoveDown (step .Activate (load_model "Chapter 1\nhello".toList)))).bookmarks =
      [] ∧
    (toggle_bookmark_at_current_line (toggle_bookmark_at_current_line
        (step .MoveDown (step .Activate (load_model "Chapter 1\nhello".toList))))).lines =
      ["Chapter 1".toList, "hello".toList] ∧
    (toggle_bookmark_at_current_line (toggle_bookmark_at_current_line
        (step .MoveDown (step .Activate (load_model "Chapter 1\nhello".toList))))).bookmarks =
      [] := by
  decide

/-! ## Claim theorems: startup jumps -/

/-- C6: A startup jump-to-chapter or jump-to-bookmark request whose
index is at least the available count makes `run` fail before a single
command of the event loop is consumed, with the fatal message built from
the actual available count and the requested index. -/
theorem C6_out_of_range_startup_jump_fatal (raw : Line) (ci bi : Nat)
    (cmds : List Command) :
    ((load_model raw).chapters.length ≤ ci →
      run_model raw (some ci) none cmds =
        .error (chapterJumpMsg (load_model raw).chapters.length ci)) ∧
    ((load_model raw).bookmarks.length ≤ bi →
      run_model raw none (some bi) cmds =
        .error (bookmarkJumpMsg (load_model raw).bookmarks.length bi)) := by
  constructor
  · intro h
    have hlt : ¬(ci < (load_model raw).chapters.length) := Nat.not_lt.mpr h
    simp [run_model, handle_initial_jumps, hlt]
  · intro h
    have hlt : ¬(bi < (load_model raw).bookmarks.length) := Nat.not_lt.mpr h
    simp [run_model, handle_initial_jumps, hlt]

/-- Witness for C6, Scenario D: jump-to-chapter(5) against a three-chapter
document fails with a message reporting the available count 3 (and the
request 5); jump-to-bookmark(7) against a single-bookmark document reports
count 1. -/
theorem C6_out_of_range_startup_jump_fatal_witness :
    run_model "Chapter 1\na\nChapter 2\nb\nChapter 3\nc".toList (some 5) none [] =
      .error "Only have 3 Chapter(s). Cannot jump to chapter 5." ∧
    run_model "Chapter 1\n🔖 x".toList none (some 7) [] =
      .error "Only have 1 Bookmark(s). Cannot jump to bookmark 7." := by
  have h1 :=
    (C6_out_of_range_startup_jump_fatal
      "Chapter 1\na\nChapter 2\nb\nChapter 3\nc".toList 5 7 []).1 (by decide)
  have h2 :=
    (C6_out_of_range_startup_jump_fatal "Chapter 1\n🔖 x".toList 5 7 []).2 (by decide)
  have e1 : chapterJumpMsg
      (load_model "Chapter 1\na\nChapter 2\nb\nChapter 3\nc".toList).chapters.length 5 =
      "Only have 3 Chapter(s). Cannot jump to chapter 5." := by decide
  have e2 : bookmarkJumpMsg
      (load_model "Chapter 1\n🔖 x".toList).bookmarks.length 7 =
      "Only have 1 Bookmark(s). Cannot jump to bookmark 7." := by decide
  rw [e1] at h1
  rw [e2] at h2
  exact ⟨h1, h2⟩

/-! ## Helper lemmas: the toggled line -/

lemma trimEnd_append_ws (l : Line) (c : Char) (h : isWS c = true) :
    trimEnd (l ++ [c]) = trimEnd l := by
  simp [trimEnd, List.dropWhile_cons, h]

lemma trimEnd_append_nonws (l : Line) (c : Char) (h : isWS c = false) :
    trimEnd (l ++ [c]) = l ++ [c] := by
  simp [trimEnd, List.dropWhile_cons, h]

lemma trim_append_nonws (l : Line) (c : Char) (h : isWS c = false) :
    trim (l ++ [c]) = l.dropWhile isWS ++ [c] := by
  rw [trim, List.dropWhile_append]
  by_cases he : (List.dropWhile isWS l).isEmpty
  · have hl : List.dropWhile isWS l = [] := List.isEmpty_iff.mp he
    rw [if_pos he, hl, List.dropWhile_cons]
    simp only [h, if_false, List.nil_append]
    have := trimEnd_append_nonws [] c h
    simpa using this
  · rw [if_neg he]
    exact trimEnd_append_nonws _ c h

lemma rlastBM_concat (x : Line) : rlastBM (x ++ [BOOKMARK_SYMBOL]) = some x.length := by
  induction x with
  | nil => simp [rlastBM]
  | cons c cs ih => simp [rlastBM, ih]

/-- Appending the marker: the branch taken when the trimmed line does not
end with the glyph. -/
lemma toggleLine_adds (line : Line) (hTrail : trimEnd line = line)
    (hNoBM : (trim line).getLast? ≠ some BOOKMARK_SYMBOL) :
    toggleLine line = line ++ [' ', BOOKMARK_SYMBOL] := by
  unfold toggleLine
  rw [if_neg hNoBM, hTrail]

/-- Removing the marker that `toggleLine_adds` appended restores the line. -/
lemma toggleLine_removes (line : Line) (hTrail : trimEnd line = line) :
    toggleLine (line ++ [' ', BOOKMARK_SYMBOL]) = line := by
  have hsplit : line ++ [' ', BOOKMARK_SYMBOL] = (line ++ [' ']) ++ [BOOKMARK_SYMBOL] := by
    simp
  have hcond : (trim (line ++ [' ', BOOKMARK_SYMBOL])).getLast? = some BOOKMARK_SYMBOL := by
    rw [hsplit, trim_append_nonws _ _ (by decide)]
    exact List.getLast?_concat _
  have hr : rlastBM (line ++ [' ', BOOKMARK_SYMBOL]) = some (line.length + 1) := by
    rw [hsplit, rlastBM_concat]
    simp
  have ht : (line ++ [' ', BOOKMARK_SYMBOL]).take (line.length + 1) = line ++ [' '] := by
    rw [hsplit]
    have hlen : (line ++ [' ']).length = line.length + 1 := by simp
    rw [← hlen, List.take_left]
  unfold toggleLine
  rw [if_pos hcond, hr]
  show trimEnd ((line ++ [' ', BOOKMARK_SYMBOL]).take (line.length + 1)) = line
  rw [ht, trimEnd_append_ws line ' ' (by decide), hTrail]

/-- Double toggle of a line with no trailing whitespace and no marker at
its end is the identity. -/
lemma toggleLine_round (line : Line) (hTrail : trimEnd line = line)
    (hNoBM : (trim line).getLast? ≠ some BOOKMARK_SYMBOL) :
    toggleLine (toggleLine line) = line := by
  rw [toggleLine_adds line hTrail hNoBM, toggleLine_removes line hTrail]

/-- The chapters after a toggle that actually edits (non-empty trimmed
line at a valid position). -/
lemma toggle_core_chapters (ci li : Nat) (s : App) (ch : Chapter) (line : Line)
    (hch : s.chapters[ci]? = some ch) (hline : ch.content[li]? = some line)
    (htr : trim line ≠ []) :
    (toggle_core ci li s).chapters =
      s.chapters.set ci { ch with content := ch.content.set li (toggleLine line) } := by
  simp only [toggle_core, hch, hline]
  rw [if_neg htr]

/-- A toggle at a missing position or on an all-whitespace line is a no-op. -/
lemma toggle_core_noop (ci li : Nat) (s : App) (ch : Chapter) (line : Line)
    (hch : s.chapters[ci]? = some ch) (hline : ch.content[li]? = some line)
    (htr : trim line = []) :
    toggle_core ci li s = s := by
  simp only [toggle_core, hch, hline]
  rw [if_pos htr]

/-! ## Claim theorems: toggle idempotence (C2) -/

/-- C2 (counterexample): For the loaded chapter line `"hello "`
(trailing space) the double toggle yields `"hello"`, not the original text:
`toggle_bookmark` trims trailing whitespace before appending the marker.
Likewise the already-marked line `"a  🔖"` (two spaces before the glyph)
comes back as `"a 🔖"`.  So the double toggle is not an exact inverse
"including any leading and trailing whitespace". -/
theorem C2_double_toggle_not_exact_counterexample :
    ((load_model "Chapter 1\nhello \na  🔖".toList).chapters[0]?.bind
        (fun c => c.content[1]?)) = some "hello ".toList ∧
    ((toggle_core 0 1 (toggle_core 0 1
        (load_model "Chapter 1\nhello \na  🔖".toList))).chapters[0]?.bind
        (fun c => c.content[1]?)) = some "hello".toList ∧
    ("hello".toList ≠ "hello ".toList) ∧
    ((load_model "Chapter 1\nhello \na  🔖".toList).chapters[0]?.bind
        (fun c => c.content[2]?)) = some "a  🔖".toList ∧
    ((toggle_core 0 2 (toggle_core 0 2
        (load_model "Chapter 1\nhello \na  🔖".toList))).chapters[0]?.bind
        (fun c => c.content[2]?)) = some "a 🔖".toList ∧
    ("a 🔖".toList ≠ "a  🔖".toList) := by
  decide

/-- C2 (amended): For every chapter content line at a valid chapter
index and line offset whose text has no trailing whitespace and whose
trimmed text does not already end with the marker glyph, calling
`toggle_bookmark` twice on that same line returns the line to exactly its
original text. -/
theorem C2_double_toggle_restores (s : App) (ci li : Nat) (ch : Chapter) (line : Line)
    (hch : s.chapters[ci]? = some ch) (hline : ch.content[li]? = some line)
    (hTrail : trimEnd line = line)
    (hNoBM : (trim line).getLast? ≠ some BOOKMARK_SYMBOL) :
    ((toggle_core ci li (toggle_core ci li s)).chapters[ci]?.bind
      (fun c2 => c2.content[li]?)) = some line := by
  have hci : ci < s.chapters.length := (List.getElem?_eq_some_iff.mp hch).1
  have hli : li < ch.content.length := (List.getElem?_eq_some_iff.mp hline).1
  by_cases htr : trim line = []
  · rw [toggle_core_noop ci li s ch line hch hline htr,
        toggle_core_noop ci li s ch line hch hline htr, hch]
    simpa using hline
  · have hadd : toggleLine line = line ++ [' ', BOOKMARK_SYMBOL] :=
      toggleLine_adds line hTrail hNoBM
    have hchaps1 := toggle_core_chapters ci li s ch line hch hline htr
    set ch1 : Chapter := { ch with content := ch.content.set li (toggleLine line) } with hch1def
    have hch1 : (toggle_core ci li s).chapters[ci]? = some ch1 := by
      rw [hchaps1]
      exact List.getElem?_set_self (by simpa using hci)
    have hline1 : ch1.content[li]? = some (toggleLine line) := by
      rw [hch1def]
      exact List.getElem?_set_self (by simpa using hli)
    have htr1 : trim (toggleLine line) ≠ [] := by
      intro hnil
      have : (trim (toggleLine line)).getLast? = some BOOKMARK_SYMBOL := by
        rw [hadd]
        have hsplit : line ++ [' ', BOOKMARK_SYMBOL] =
            (line ++ [' ']) ++ [BOOKMARK_SYMBOL] := by simp
        rw [hsplit, trim_append_nonws _ _ (by decide)]
        exact List.getLast?_concat _
      rw [hnil] at this
      cases this
    have hchaps2 :=
      toggle_core_chapters ci li (toggle_core ci li s) ch1 (toggleLine line) hch1 hline1 htr1
    have hround : toggleLine (toggleLine line) = line :=
      toggleLine_round line hTrail hNoBM
    rw [hchaps2, hchaps1, List.set_set]
    have hfinal :
        (s.chapters.set ci
          { ch1 with content := ch1.content.set li (toggleLine (toggleLine line)) })[ci]? =
        some { ch1 with content := ch1.content.set li (toggleLine (toggleLine line)) } :=
      List.getElem?_set_self (by simpa using hci)
    rw [hfinal]
    simp only [Option.bind_some]
    show (ch1.content.set li (toggleLine (toggleLine line)))[li]? = some line
    rw [hround]
    show ((ch.content.set li (toggleLine line)).set li line)[li]? = some line
    rw [List.set_set]
    exact List.getElem?_set_self (by simpa using hli)

/-- Witness for C2 (amended) on the line `"hello"` of a loaded document. -/
theorem C2_double_toggle_restores_witness :
    ((toggle_core 0 1 (toggle_core 0 1
        (load_model "Chapter 1\nhello".toList))).chapters[0]?.bind
      (fun c2 => c2.content[1]?)) = some "hello".toList :=
  C2_double_toggle_restores (load_model "Chapter 1\nhello".toList) 0 1
    ⟨1, "Chapter 1".toList, 0, ["Chapter 1".toList, "hello".toList]⟩ "hello".toList
    (by decide) (by decide) (by decide) (by decide)

/-! ## Helper lemmas: the segmenter scan -/

/-- One past the last buffer index of a chapter's range. -/
def chapterEnd (c : Chapter) : Nat := c.start_line + c.content.length

/-- Whether a line is a chapter header. -/
def isHeaderB (l : Line) : Bool := (headerOf l).isSome

lemma getLast?_cons_of_ne_nil {α : Type} (a : α) (l : List α) (h : l ≠ []) :
    (a :: l).getLast? = l.getLast? := by
  cases l with
  | nil => exact absurd rfl h
  | cons b t => exact List.getLast?_cons_cons

/-- The chapter being built survives as the head of the scan's output,
keeping its `start_line` (its content only grows at the back). -/
lemma parseGo_head_start (ls : List Line) : ∀ (i : Nat) (c : Chapter),
    (parseGo i (some c) ls).head?.map Chapter.start_line = some c.start_line := by
  induction ls with
  | nil => intro i c; simp [parseGo]
  | cons l ls ih =>
    intro i c
    cases hh : headerOf l with
    | some hd => simp [parseGo, hh]
    | none => simpa [parseGo, hh] using ih (i + 1) { c with content := c.content ++ [l] }

lemma parseGo_ne_nil_some (ls : List Line) (i : Nat) (c : Chapter) :
    parseGo i (some c) ls ≠ [] := by
  intro hnil
  have := parseGo_head_start ls i c
  rw [hnil] at this
  cases this

/-- While a chapter is open whose range ends exactly at the cursor, the
output is a contiguous chain and the last chapter's range ends at the end
of the remaining input. -/
lemma parseGo_chain_some (ls : List Line) : ∀ (i : Nat) (c : Chapter),
    chapterEnd c = i →
    List.Chain' (fun a b => chapterEnd a = b.start_line) (parseGo i (some c) ls) ∧
    (parseGo i (some c) ls).getLast?.map chapterEnd = some (i + ls.length) := by
  induction ls with
  | nil =>
    intro i c h
    refine ⟨List.chain'_singleton c, ?_⟩
    simp [parseGo, h]
  | cons l ls ih =>
    intro i c h
    cases hh : headerOf l with
    | some hd =>
      have hnew : chapterEnd (mkChapterFromHeader i l hd) = i + 1 := by
        simp [mkChapterFromHeader, chapterEnd]
      obtain ⟨ihc, ihl⟩ := ih (i + 1) (mkChapterFromHeader i l hd) hnew
      have hhead := parseGo_head_start ls (i + 1) (mkChapterFromHeader i l hd)
      have hne := parseGo_ne_nil_some ls (i + 1) (mkChapterFromHeader i l hd)
      constructor
      · simp only [parseGo, hh, List.singleton_append]
        rw [List.chain'_cons']
        refine ⟨?_, ihc⟩
        intro y hy
        have : (parseGo (i + 1) (some (mkChapterFromHeader i l hd)) ls).head?.map
            Chapter.start_line = some y.start_line := by
          rw [hy]
          rfl
        rw [hhead] at this
        have hy2 : y.start_line = (mkChapterFromHeader i l hd).start_line := by
          injection this with h2
          exact h2.symm
        rw [hy2]
        simpa [mkChapterFromHeader] using h
      · simp only [parseGo, hh, List.singleton_append]
        rw [getLast?_cons_of_ne_nil _ _ hne, ihl]
        simp only [List.length_cons]
        congr 1
        omega
    | none =>
      have hext : chapterEnd { c with content := c.content ++ [l] } = i + 1 := by
        simp only [chapterEnd] at h ⊢
        simp only [List.length_append, List.length_cons, List.length_nil]
        omega
      obtain ⟨ihc, ihl⟩ := ih (i + 1) { c with content := c.content ++ [l] } hext
      constructor
      · simpa [parseGo, hh] using ihc
      · simp only [parseGo, hh]
        rw [ihl]
        congr 1
        simp [Nat.add_assoc, Nat.add_comm 1 ls.length]

/-- From a closed state the scan output is a contiguous chain; when
non-empty it starts at the first header and ends at the end of the input. -/
lemma parseGo_chain_none (ls : List Line) : ∀ (i : Nat),
    List.Chain' (fun a b => chapterEnd a = b.start_line) (parseGo i none ls) ∧
    (parseGo i none ls ≠ [] →
      (parseGo i none ls).head?.map Chapter.start_line =
        some (i + ls.findIdx isHeaderB) ∧
      (parseGo i none ls).getLast?.map chapterEnd = some (i + ls.length)) := by
  induction ls with
  | nil =>
    intro i
    refine ⟨by simp [parseGo], ?_⟩
    intro hne
    simp [parseGo] at hne
  | cons l ls ih =>
    intro i
    cases hh : headerOf l with
    | some hd =>
      have hnew : chapterEnd (mkChapterFromHeader i l hd) = i + 1 := by
        simp [mkChapterFromHeader, chapterEnd]
      obtain ⟨hc, hl⟩ := parseGo_chain_some ls (i + 1) (mkChapterFromHeader i l hd) hnew
      have hhead := parseGo_head_start ls (i + 1) (mkChapterFromHeader i l hd)
      refine ⟨by simpa [parseGo, hh] using hc, ?_⟩
      intro _
      constructor
      · have hb : isHeaderB l = true := by simp [isHeaderB, hh]
        simp only [parseGo, hh, List.nil_append, List.findIdx_cons, hb, cond_true]
        rw [hhead]
        simp [mkChapterFromHeader]
      · simp only [parseGo, hh, List.nil_append]
        rw [hl]
        simp only [List.length_cons]
        congr 1
        omega
    | none =>
      obtain ⟨hc, hrest⟩ := ih (i + 1)
      refine ⟨by simpa [parseGo, hh] using hc, ?_⟩
      intro hne
      have hne2 : parseGo (i + 1) none ls ≠ [] := by
        simpa [parseGo, hh] using hne
      obtain ⟨h1, h2⟩ := hrest hne2
      have hb : isHeaderB l = false := by simp [isHeaderB, hh]
      constructor
      · simp only [parseGo, hh, List.findIdx_cons, hb, cond_false]
        rw [h1]
        congr 1
        omega
      · simp only [parseGo, hh]
        rw [h2]
        simp only [List.length_cons]
        congr 1
        omega

/-- Every chapter the scan outputs has non-empty content (it starts with
its header line). -/
lemma parseGo_content_ne (ls : List Line) : ∀ (i : Nat) (cur : Option Chapter),
    (∀ c, cur = some c → c.content ≠ []) →
    ∀ ch ∈ parseGo i cur ls, ch.content ≠ [] := by
  induction ls with
  | nil =>
    intro i cur hcur ch hch
    cases cur with
    | none => simp [parseGo] at hch
    | some c =>
      simp [parseGo] at hch
      rw [hch]
      exact hcur c rfl
  | cons l ls ih =>
    intro i cur hcur ch hch
    cases hh : headerOf l with
    | some hd =>
      cases cur with
      | some c =>
        simp only [parseGo, hh, List.singleton_append, List.mem_cons] at hch
        rcases hch with h1 | h2
        · rw [h1]; exact hcur c rfl
        · exact ih (i + 1) (some (mkChapterFromHeader i l hd))
            (by intro c' hc'; injection hc' with he; rw [← he]; simp [mkChapterFromHeader])
            ch h2
      | none =>
        simp only [parseGo, hh, List.nil_append] at hch
        exact ih (i + 1) (some (mkChapterFromHeader i l hd))
          (by intro c' hc'; injection hc' with he; rw [← he]; simp [mkChapterFromHeader])
          ch hch
    | none =>
      cases cur with
      | some c =>
        simp only [parseGo, hh] at hch
        exact ih (i + 1) (some { c with content := c.content ++ [l] })
          (by intro c' hc'; injection hc' with he; rw [← he]; simp) ch hch
      | none =>
        simp only [parseGo, hh] at hch
        exact ih (i + 1) none (by intro c' hc'; cases hc') ch hch

/-- Every chapter the scan outputs copies the buffer slice starting at its
`start_line` (the content-equals-buffer-slice invariant at parse time). -/
lemma parseGo_content_eq (full : List Line) : ∀ (ls : List Line) (i : Nat)
    (cur : Option Chapter),
    full.drop i = ls →
    (∀ c, cur = some c → chapterEnd c = i ∧
      ∀ k, k < c.content.length → c.content[k]? = full[c.start_line + k]?) →
    ∀ ch ∈ parseGo i cur ls, ∀ k, k < ch.content.length →
      ch.content[k]? = full[ch.start_line + k]? := by
  intro ls
  induction ls with
  | nil =>
    intro i cur _ hcur ch hch k hk
    cases cur with
    | none => simp [parseGo] at hch
    | some c =>
      simp [parseGo] at hch
      rw [hch]
      exact (hcur c rfl).2 k (by rw [← hch]; exact hk)
  | cons l ls ih =>
    intro i cur hdrop hcur ch hch k hk
    have hget : full[i]? = some l := by
      have h0 := List.getElem?_drop full i 0
      rw [hdrop] at h0
      simpa using h0.symm
    have hdrop2 : full.drop (i + 1) = ls := by
      have h1 : full.drop (i + 1) = (full.drop i).drop 1 := by
        rw [List.drop_drop]
      rw [h1, hdrop]
      rfl
    have hnewcur : ∀ (hd : HeaderInfo) (c' : Chapter),
        some (mkChapterFromHeader i l hd) = some c' → chapterEnd c' = i + 1 ∧
        ∀ k, k < c'.content.length → c'.content[k]? = full[c'.start_line + k]? := by
      intro hd c' hc'
      injection hc' with he
      rw [← he]
      refine ⟨by simp [mkChapterFromHeader, chapterEnd], ?_⟩
      intro k hk2
      simp only [mkChapterFromHeader, List.length_cons, List.length_nil] at hk2
      interval_cases k
      simpa [mkChapterFromHeader] using hget.symm
    cases hh : headerOf l with
    | some hd =>
      cases cur with
      | some c =>
        simp only [parseGo, hh, List.singleton_append, List.mem_cons] at hch
        rcases hch with h1 | h2
        · rw [h1]
          exact (hcur c rfl).2 k (by rw [← h1]; exact hk)
        · exact ih (i + 1) (some (mkChapterFromHeader i l hd)) hdrop2
            (hnewcur hd) ch h2 k hk
      | none =>
        simp only [parseGo, hh, List.nil_append] at hch
        exact ih (i + 1) (some (mkChapterFromHeader i l hd)) hdrop2
          (hnewcur hd) ch hch k hk
    | none =>
      cases cur with
      | some c =>
        simp only [parseGo, hh] at hch
        refine ih (i + 1) (some { c with content := c.content ++ [l] }) hdrop2
          ?_ ch hch k hk
        intro c' hc'
        injection hc' with he
        obtain ⟨hend, hcont⟩ := hcur c rfl
        rw [← he]
        constructor
        · simp only [chapterEnd, List.length_append, List.length_cons,
            List.length_nil] at hend ⊢
          omega
        · intro k2 hk2
          simp only [List.length_append, List.length_cons, List.length_nil] at hk2
          by_cases hlt : k2 < c.content.length
          · rw [List.getElem?_append_left hlt]
            exact hcont k2 hlt
          · have hk2e : k2 = c.content.length := by omega
            rw [hk2e]
            rw [List.getElem?_concat_length]
            have : c.start_line + c.content.length = i := by
              simpa [chapterEnd] using hend
            rw [this, hget]
      | none =>
        simp only [parseGo, hh] at hch
        exact ih (i + 1) none hdrop2 (by intro c' hc'; cases hc') ch hch k hk

/-! ## Claim theorems: the Segmenter (C4, C9) -/

/-- C4: For every input line buffer the Segmenter's chapters form a
contiguous tiling: consecutive chapters satisfy
`start_line + content.length = next.start_line` (contiguous and therefore
pairwise disjoint, which the `Pairwise` conjunct states explicitly), all
contents are non-empty so `start_line` is strictly ascending, and when any
chapter exists the first starts at the first detected header line and the
last ends exactly at the end of the buffer. -/
theorem C4_segmenter_tiles (lines : List Line) :
    List.Chain' (fun a b => a.start_line + a.content.length = b.start_line)
      (parse_lines lines) ∧
    (∀ ch ∈ parse_lines lines, ch.content ≠ []) ∧
    List.Chain' (fun a b => a.start_line < b.start_line) (parse_lines lines) ∧
    List.Pairwise (fun a b => a.start_line + a.content.length ≤ b.start_line)
      (parse_lines lines) ∧
    (parse_lines lines ≠ [] →
      (parse_lines lines).head?.map Chapter.start_line =
        some (lines.findIdx isHeaderB) ∧
      (parse_lines lines).getLast?.map (fun c => c.start_line + c.content.length) =
        some lines.length) := by
  obtain ⟨hchain, hends⟩ := parseGo_chain_none lines 0
  have hne : ∀ ch ∈ parse_lines lines, ch.content ≠ [] :=
    parseGo_content_ne lines 0 none (by intro c hc; cases hc)
  have hchain' : List.Chain' (fun a b => a.start_line + a.content.length = b.start_line)
      (parse_lines lines) := hchain
  refine ⟨hchain', hne, ?_, ?_, ?_⟩
  · rw [List.chain'_iff_get] at hchain' ⊢
    intro i hi
    have h1 := hchain' i hi
    have h2 := hne ((parse_lines lines).get ⟨i, by omega⟩) (List.get_mem _ _ _)
    have h3 : 0 < ((parse_lines lines).get ⟨i, by omega⟩).content.length :=
      List.length_pos.mpr h2
    omega
  · have hle : List.Chain' (fun a b => a.start_line + a.content.length ≤ b.start_line)
        (parse_lines lines) := hchain'.imp (fun a b h => le_of_eq h)
    haveI : IsTrans Chapter (fun a b => a.start_line + a.content.length ≤ b.start_line) := by
      constructor
      intro a b c hab hbc
      exact le_trans hab (le_trans (Nat.le_add_right _ _) hbc)
    exact List.chain'_iff_pairwise.mp hle
  · intro h
    obtain ⟨h1, h2⟩ := hends h
    exact ⟨by simpa using h1, by simpa [chapterEnd] using h2⟩

/-- Witness for C4 on a five-line buffer with a non-header prologue and two
headers (one generic, one localized): strict ascent holds, the first
chapter starts at line 1 (the first header) and the last range ends at 5. -/
theorem C4_segmenter_tiles_witness :
    List.Chain' (fun a b => a.start_line < b.start_line)
      (parse_lines (["intro", "Chapter 1 A", "x", "第2章", "y"].map String.toList)) ∧
    (parse_lines (["intro", "Chapter 1 A", "x", "第2章", "y"].map String.toList)).head?.map
      Chapter.start_line = some 1 ∧
    (parse_lines (["intro", "Chapter 1 A", "x", "第2章", "y"].map String.toList)).getLast?.map
      (fun c => c.start_line + c.content.length) = some 5 := by
  have h := C4_segmenter_tiles (["intro", "Chapter 1 A", "x", "第2章", "y"].map String.toList)
  have h2 := h.2.2.2.2 (by decide)
  exact ⟨h.2.2.1, h2.1.trans (by decide), h2.2.trans (by decide)⟩

/-- The chapter currently being built appears in the scan's output with its
`start_line` and `number` intact. -/
lemma parseGo_mem_of_cur (ls : List Line) : ∀ (i : Nat) (c : Chapter),
    ∃ ch ∈ parseGo i (some c) ls,
      ch.start_line = c.start_line ∧ ch.number = c.number := by
  induction ls with
  | nil =>
    intro i c
    exact ⟨c, by simp [parseGo], rfl, rfl⟩
  | cons l ls ih =>
    intro i c
    cases hh : headerOf l with
    | some hd =>
      refine ⟨c, ?_, rfl, rfl⟩
      simp [parseGo, hh]
    | none =>
      obtain ⟨ch, hm, hs, hn⟩ := ih (i + 1) { c with content := c.content ++ [l] }
      exact ⟨ch, by simpa [parseGo, hh] using hm, hs, hn⟩

/-- Every header line of the input produces a chapter whose `start_line` is
that line's index and whose `number` is the parsed digit group. -/
lemma header_yields_chapter : ∀ (ls : List Line) (j i : Nat) (cur : Option Chapter)
    (l : Line) (hd : HeaderInfo),
    ls[j]? = some l → headerOf l = some hd →
    ∃ ch ∈ parseGo i cur ls,
      ch.start_line = i + j ∧ ch.number = parseUsize hd.digits := by
  intro ls
  induction ls with
  | nil =>
    intro j i cur l hd hl _
    simp at hl
  | cons l0 ls ih =>
    intro j i cur l hd hl hh
    cases j with
    | zero =>
      have hl0 : l0 = l := by simpa using hl
      subst hl0
      cases hh0 : headerOf l0 with
      | none => rw [hh0] at hh; cases hh
      | some hd0 =>
        have hdeq : hd0 = hd := by rw [hh0] at hh; injection hh
        subst hdeq
        obtain ⟨ch, hm, hs, hn⟩ :=
          parseGo_mem_of_cur ls (i + 1) (mkChapterFromHeader i l0 hd0)
        refine ⟨ch, ?_, ?_, ?_⟩
        · cases cur with
          | some c =>
            simp only [parseGo, hh0, List.singleton_append, List.mem_cons]
            exact Or.inr hm
          | none =>
            simp only [parseGo, hh0, List.nil_append]
            exact hm
        · rw [hs]
          simp [mkChapterFromHeader]
        · rw [hn]
          simp [mkChapterFromHeader]
    | succ j' =>
      have hl' : ls[j']? = some l := by simpa using hl
      cases hh0 : headerOf l0 with
      | some hd0 =>
        obtain ⟨ch, hm, hs, hn⟩ :=
          ih j' (i + 1) (some (mkChapterFromHeader i l0 hd0)) l hd hl' hh
        refine ⟨ch, ?_, by omega, hn⟩
        cases cur with
        | some c =>
          simp only [parseGo, hh0, List.singleton_append, List.mem_cons]
          exact Or.inr hm
        | none =>
          simp only [parseGo, hh0, List.nil_append]
          exact hm
      | none =>
        cases cur with
        | some c =>
          obtain ⟨ch, hm, hs, hn⟩ :=
            ih j' (i + 1) (some { c with content := c.content ++ [l0] }) l hd hl' hh
          exact ⟨ch, by simpa [parseGo, hh0] using hm, by omega, hn⟩
        | none =>
          obtain ⟨ch, hm, hs, hn⟩ := ih j' (i + 1) none l hd hl' hh
          exact ⟨ch, by simpa [parseGo, hh0] using hm, by omega, hn⟩

/-- C9: A header line whose digit group's value does not fit in the
64-bit `usize` does not make the Segmenter fail: it still produces a
chapter for that header (at the header's line index), with `number = 0`. -/
theorem C9_overflowing_header_number_zero (lines : List Line) (j : Nat)
    (l : Line) (hd : HeaderInfo)
    (hl : lines[j]? = some l) (hh : headerOf l = some hd)
    (hov : 2 ^ 64 ≤ digitsToNat hd.digits) :
    ∃ ch ∈ parse_lines lines, ch.start_line = j ∧ ch.number = 0 := by
  obtain ⟨ch, hm, hs, hn⟩ := header_yields_chapter lines j 0 none l hd hl hh
  refine ⟨ch, hm, by simpa using hs, ?_⟩
  rw [hn]
  simp only [parseUsize]
  rw [if_neg (Nat.not_lt.mpr hov)]

/-- Witness for C9: `"Chapter 99999999999999999999"` (value `10^20 - 1`,
above `usize::MAX`) yields a chapter with number 0. -/
theorem C9_overflowing_header_number_zero_witness :
    ∃ ch ∈ parse_lines ["Chapter 99999999999999999999".toList],
      ch.start_line = 0 ∧ ch.number = 0 :=
  C9_overflowing_header_number_zero ["Chapter 99999999999999999999".toList] 0
    "Chapter 99999999999999999999".toList
    ⟨false, "99999999999999999999".toList, []⟩
    (by decide) (by decide) (by decide)

/-! ## Claim C3: content equals buffer slice, as an invariant -/

/-- The `lines` field after a toggle that actually edits. -/
lemma toggle_core_lines (ci li : Nat) (s : App) (ch : Chapter) (line : Line)
    (hch : s.chapters[ci]? = some ch) (hline : ch.content[li]? = some line)
    (htr : trim line ≠ []) :
    (toggle_core ci li s).lines =
      s.lines.set (ch.start_line + li) (toggleLine line) := by
  simp only [toggle_core, hch, hline]
  rw [if_neg htr]

/-- Spec §3 invariant: `content[k] = line_buffer[start_line + k]` for every
chapter and every valid offset. -/
def ContentInv (s : App) : Prop :=
  ∀ (j : Nat) (ch : Chapter), s.chapters[j]? = some ch →
    ∀ k, k < ch.content.length → ch.content[k]? = s.lines[ch.start_line + k]?

/-- Chapter ranges are pairwise separated (the auxiliary fact that makes
`ContentInv` inductive: an edit inside one chapter's range cannot land in
another's). -/
def SepInv (chs : List Chapter) : Prop :=
  ∀ (i j : Nat) (a b : Chapter), i < j → chs[i]? = some a → chs[j]? = some b →
    a.start_line + a.content.length ≤ b.start_line

/-- A sequence of Document-Store toggle calls. -/
def toggleCalls (calls : List (Nat × Nat)) (s : App) : App :=
  calls.foldl (fun t p => toggle_core p.1 p.2 t) s

lemma select_chapter_doc (idx : Nat) (s : App) :
    (select_chapter idx s).chapters = s.chapters ∧
    (select_chapter idx s).lines = s.lines := by
  unfold select_chapter
  cases h : s.chapters[idx]? <;> simp [h]

lemma load_model_doc (raw : Line) :
    (load_model raw).chapters = parse_lines (rustLines raw) ∧
    (load_model raw).lines = rustLines raw := by
  unfold load_model
  constructor <;> (dsimp only; split <;> split <;> simp [select_chapter_doc])

lemma parse_lines_SepInv (lines : List Line) : SepInv (parse_lines lines) := by
  have hchain := (parseGo_chain_none lines 0).1
  have hle : List.Chain' (fun a b => chapterEnd a ≤ b.start_line) (parse_lines lines) :=
    hchain.imp (fun a b h => le_of_eq h)
  haveI : IsTrans Chapter (fun a b => chapterEnd a ≤ b.start_line) := by
    constructor
    intro a b c hab hbc
    exact le_trans hab (le_trans (Nat.le_add_right _ _) hbc)
  have hpw := List.chain'_iff_pairwise.mp hle
  rw [List.pairwise_iff_get] at hpw
  intro i j a b hij ha hb
  obtain ⟨hi, hia⟩ := List.getElem?_eq_some_iff.mp ha
  obtain ⟨hj, hjb⟩ := List.getElem?_eq_some_iff.mp hb
  have h := hpw ⟨i, hi⟩ ⟨j, hj⟩ (Fin.mk_lt_mk.mpr hij)
  simpa [List.get_eq_getElem, hia, hjb, chapterEnd] using h

/-- A toggle call preserves both invariants. -/
lemma toggle_core_preserves (ci li : Nat) (s : App)
    (hC : ContentInv s) (hS : SepInv s.chapters) :
    ContentInv (toggle_core ci li s) ∧ SepInv (toggle_core ci li s).chapters := by
  cases hch : s.chapters[ci]? with
  | none =>
    have htc : toggle_core ci li s = s := by simp only [toggle_core, hch]
    rw [htc]
    exact ⟨hC, hS⟩
  | some ch =>
    cases hline : ch.content[li]? with
    | none =>
      have htc : toggle_core ci li s = s := by simp only [toggle_core, hch, hline]
      rw [htc]
      exact ⟨hC, hS⟩
    | some line =>
      by_cases htr : trim line = []
      · rw [toggle_core_noop ci li s ch line hch hline htr]
        exact ⟨hC, hS⟩
      · have hchaps := toggle_core_chapters ci li s ch line hch hline htr
        have hlines := toggle_core_lines ci li s ch line hch hline htr
        have hci : ci < s.chapters.length := (List.getElem?_eq_some_iff.mp hch).1
        have hli : li < ch.content.length := (List.getElem?_eq_some_iff.mp hline).1
        have hbuf : s.lines[ch.start_line + li]? = some line := by
          rw [← hC ci ch hch li hli]
          exact hline
        have hbuflt : ch.start_line + li < s.lines.length :=
          (List.getElem?_eq_some_iff.mp hbuf).1
        constructor
        · intro j ch' hch' k hk
          rw [hchaps] at hch'
          rw [hlines]
          by_cases hj : j = ci
          · subst hj
            have hset : (s.chapters.set j
                { ch with content := ch.content.set li (toggleLine line) })[j]? =
                some { ch with content := ch.content.set li (toggleLine line) } :=
              List.getElem?_set_self (by simpa using hci)
            rw [hset] at hch'
            injection hch' with he
            subst he
            show (ch.content.set li (toggleLine line))[k]? =
              (s.lines.set (ch.start_line + li) (toggleLine line))[ch.start_line + k]?
            by_cases hk2 : k = li
            · subst hk2
              rw [List.getElem?_set_self (by simpa using hli),
                List.getElem?_set_self (by simpa using hbuflt)]
            · have hk3 : k < ch.content.length := by
                simpa using hk
              rw [List.getElem?_set_ne (fun he => hk2 he.symm),
                List.getElem?_set_ne (fun he => hk2 (Nat.add_left_cancel he).symm)]
              exact hC j ch hch k hk3
          · rw [List.getElem?_set_ne (fun he => hj he.symm)] at hch'
            have hch2 : s.chapters[j]? = some ch' := hch'
            have hne : ch.start_line + li ≠ ch'.start_line + k := by
              rcases Nat.lt_or_ge j ci with hlt | hge
              · have hsep := hS j ci ch' ch hlt hch2 hch
                omega
              · have hcij : ci < j := lt_of_le_of_ne hge (fun he => hj he.symm)
                have hsep := hS ci j ch ch' hcij hch hch2
                omega
            rw [List.getElem?_set_ne hne]
            exact hC j ch' hch2 k hk
        · rw [hchaps]
          intro i2 j2 a b hij ha hb
          by_cases hi2 : i2 = ci
          · subst hi2
            have hj2 : j2 ≠ i2 := fun he => Nat.lt_irrefl _ (he ▸ hij)
            have hset : (s.chapters.set i2
                { ch with content := ch.content.set li (toggleLine line) })[i2]? =
                some { ch with content := ch.content.set li (toggleLine line) } :=
              List.getElem?_set_self (by simpa using hci)
            rw [hset] at ha
            injection ha with hea
            rw [List.getElem?_set_ne (fun he => hj2 he.symm)] at hb
            have := hS i2 j2 ch b hij hch hb
            rw [← hea]
            simpa using this
          · rw [List.getElem?_set_ne (fun he => hi2 he.symm)] at ha
            have ha2 : s.chapters[i2]? = some a := ha
            by_cases hj2 : j2 = ci
            · subst hj2
              have hset : (s.chapters.set j2
                  { ch with content := ch.content.set li (toggleLine line) })[j2]? =
                  some { ch with content := ch.content.set li (toggleLine line) } :=
                List.getElem?_set_self (by simpa using hci)
              rw [hset] at hb
              injection hb with heb
              have := hS i2 j2 a ch hij ha2 hch
              rw [← heb]
              exact this
            · rw [List.getElem?_set_ne (fun he => hj2 he.symm)] at hb
              exact hS i2 j2 a b hij ha2 hb

lemma toggleCalls_preserves (calls : List (Nat × Nat)) : ∀ (s : App),
    ContentInv s ∧ SepInv s.chapters →
    ContentInv (toggleCalls calls s) ∧ SepInv (toggleCalls calls s).chapters := by
  induction calls with
  | nil => intro s h; exact h
  | cons p ps ih =>
    intro s h
    exact ih (toggle_core p.1 p.2 s) (toggle_core_preserves p.1 p.2 s h.1 h.2)

/-- C3: For every loaded document, every chapter and every valid offset
`k` into its content, `content[k] = line_buffer[start_line + k]` — both
immediately after segmentation and after any finite sequence of
`toggle_bookmark` calls (at arbitrary chapter indices and line offsets). -/
theorem C3_content_equals_buffer_slice (raw : Line) (calls : List (Nat × Nat)) :
    ContentInv (load_model raw) ∧ ContentInv (toggleCalls calls (load_model raw)) := by
  obtain ⟨hch, hln⟩ := load_model_doc raw
  have hbase : ContentInv (load_model raw) ∧ SepInv (load_model raw).chapters := by
    constructor
    · intro j ch hj k hk
      rw [hch] at hj
      rw [hln]
      have hmem : ch ∈ parse_lines (rustLines raw) :=
        List.mem_iff_getElem?.mpr ⟨j, hj⟩
      exact parseGo_content_eq (rustLines raw) (rustLines raw) 0 none (by simp)
        (by intro c hc; cases hc) ch hmem k hk
    · rw [hch]
      exact parse_lines_SepInv (rustLines raw)
  exact ⟨hbase.1, (toggleCalls_preserves calls (load_model raw) hbase).1⟩

/-- Witness for C3: in the document `"Chapter 1\nhello"` after toggling
line 1 of chapter 0, the chapter's content at offset 1 still equals the
buffer at `start_line + 1`. -/
theorem C3_content_equals_buffer_slice_witness :
    (⟨1, "Chapter 1".toList, 0,
        ["Chapter 1".toList, "hello 🔖".toList]⟩ : Chapter).content[1]? =
      (toggleCalls [(0, 1)] (load_model "Chapter 1\nhello".toList)).lines[0 + 1]? :=
  (C3_content_equals_buffer_slice "Chapter 1\nhello".toList [(0, 1)]).2 0
    ⟨1, "Chapter 1".toList, 0, ["Chapter 1".toList, "hello 🔖".toList]⟩
    (by decide) 1 (by decide)

/-! ## Claim C10: persist format and the load–persist round trip -/

lemma joinNl_cons (x : Line) (xs : List Line) (h : xs ≠ []) :
    joinNl (x :: xs) = x ++ '\n' :: joinNl xs := by
  cases xs with
  | nil => exact absurd rfl h
  | cons y ys => rfl

lemma linesAux_eq_nil : ∀ (rest cur : Line),
    linesAux cur rest = [] ↔ (cur = [] ∧ rest = []) := by
  intro rest
  induction rest with
  | nil =>
    intro cur
    unfold linesAux
    by_cases h : cur = [] <;> simp [h]
  | cons c rest ih =>
    intro cur
    unfold linesAux
    by_cases h : c = '\n'
    · simp [h]
    · rw [if_neg h, ih (c :: cur)]
      simp

lemma linesAux_nl (cur rest : Line) :
    linesAux cur ('\n' :: rest) = stripCR cur.reverse :: linesAux [] rest := by
  simp [linesAux]

lemma linesAux_other (cur : Line) (c : Char) (rest : Line) (h : ¬c = '\n') :
    linesAux cur (c :: rest) = linesAux (c :: cur) rest := by
  simp only [linesAux]
  rw [if_neg h]

lemma stripCR_length (l : Line) : (stripCR l).length ≤ l.length := by
  unfold stripCR
  cases h : l.getLast? with
  | none => simp
  | some c =>
    by_cases hc : c = '\r' <;> simp [hc, List.length_dropLast]

lemma joinNl_linesAux_le : ∀ (s cur : Line),
    (joinNl (linesAux cur s)).length ≤ cur.length + s.length := by
  intro s
  induction s with
  | nil =>
    intro cur
    unfold linesAux
    by_cases h : cur = [] <;> simp [h, joinNl]
  | cons c s ih =>
    intro cur
    unfold linesAux
    by_cases h : c = '\n'
    · rw [if_pos h]
      by_cases hs : s = []
      · subst hs
        have h0 : linesAux [] ([] : Line) = [] := by unfold linesAux; simp
        rw [h0, joinNl]
        have h1 := stripCR_length cur.reverse
        simp [List.length_reverse] at h1
        simp [List.length_cons]
        omega
      · have hne : linesAux [] s ≠ [] := by
          rw [Ne, linesAux_eq_nil]
          simp [hs]
        rw [joinNl_cons _ _ hne]
        have h1 := stripCR_length cur.reverse
        have h2 := ih []
        simp [List.length_reverse] at h1 h2
        simp [List.length_append, List.length_cons]
        omega
    · rw [if_neg h]
      have h2 := ih (c :: cur)
      simp [List.length_cons] at h2 ⊢
      omega

lemma joinNl_linesAux_newline_lt : ∀ (s cur : Line),
    (joinNl (linesAux cur (s ++ ['\n']))).length < cur.length + s.length + 1 := by
  intro s
  induction s with
  | nil =>
    intro cur
    have h1 : linesAux cur ([] ++ ['\n']) = [stripCR cur.reverse] := by
      simp only [List.nil_append]
      unfold linesAux
      rw [if_pos rfl]
      have h0 : linesAux [] ([] : Line) = [] := by unfold linesAux; simp
      rw [h0]
    rw [h1, joinNl]
    have h2 := stripCR_length cur.reverse
    simp [List.length_reverse] at h2
    simp [List.length_nil]
    omega
  | cons c s ih =>
    intro cur
    simp only [List.cons_append]
    unfold linesAux
    by_cases h : c = '\n'
    · rw [if_pos h]
      have hne : linesAux [] (s ++ ['\n']) ≠ [] := by
        rw [Ne, linesAux_eq_nil]
        simp
      rw [joinNl_cons _ _ hne]
      have h1 := stripCR_length cur.reverse
      have h2 := ih []
      simp [List.length_reverse] at h1 h2
      simp [List.length_append, List.length_cons]
      omega
    · rw [if_neg h]
      have h2 := ih (c :: cur)
      simp [List.length_cons] at h2 ⊢
      omega

lemma joinNl_linesAux_crlf_lt : ∀ (a b cur : Line),
    (joinNl (linesAux cur (a ++ '\r' :: '\n' :: b))).length <
      cur.length + (a.length + 2 + b.length) := by
  intro a
  induction a with
  | nil =>
    intro b cur
    have h1 : linesAux cur ([] ++ '\r' :: '\n' :: b) =
        stripCR (('\r' :: cur).reverse) :: linesAux [] b := by
      simp only [List.nil_append]
      rw [linesAux_other cur '\r' ('\n' :: b) (by decide), linesAux_nl]
    have h2 : stripCR (('\r' :: cur).reverse) = cur.reverse := by
      rw [List.reverse_cons]
      unfold stripCR
      rw [List.getLast?_concat]
      simp [List.dropLast_concat]
    rw [h1, h2]
    by_cases hb : b = []
    · subst hb
      have h0 : linesAux [] ([] : Line) = [] := by unfold linesAux; simp
      rw [h0, joinNl]
      simp [List.length_reverse, List.length_nil]
    · have hne : linesAux [] b ≠ [] := by
        rw [Ne, linesAux_eq_nil]
        simp [hb]
      rw [joinNl_cons _ _ hne]
      have h3 := joinNl_linesAux_le b []
      simp at h3
      simp [List.length_append, List.length_cons, List.length_reverse]
      omega
  | cons c a ih =>
    intro b cur
    simp only [List.cons_append]
    unfold linesAux
    by_cases h : c = '\n'
    · rw [if_pos h]
      have hne : linesAux [] (a ++ '\r' :: '\n' :: b) ≠ [] := by
        rw [Ne, linesAux_eq_nil]
        simp
      rw [joinNl_cons _ _ hne]
      have h1 := stripCR_length cur.reverse
      have h2 := ih b []
      simp [List.length_reverse] at h1 h2
      simp [List.length_append, List.length_cons]
      omega
    · rw [if_neg h]
      have h2 := ih b (c :: cur)
      simp [List.length_cons] at h2 ⊢
      omega

/-- Exactly `n - 1` separator characters and nothing else: the serialised
buffer's length is the sum of the line lengths plus one `'\n'` between each
consecutive pair, with no trailing newline. -/
lemma joinNl_length (ls : List Line) : ls ≠ [] →
    (joinNl ls).length + 1 = (ls.map List.length).sum + ls.length := by
  induction ls with
  | nil => intro h; exact absurd rfl h
  | cons x xs ih =>
    intro _
    cases xs with
    | nil => simp [joinNl]
    | cons y ys =>
      have h2 := ih (by simp)
      rw [joinNl_cons x (y :: ys) (by simp)]
      simp only [List.map_cons, List.sum_cons, List.length_append,
        List.length_cons] at h2 ⊢
      omega

/-- C10: the operation `persist` writes exactly the line buffer joined by single
`'\n'` separators with no trailing newline (conjuncts 1 and 2), and
consequently load followed immediately by persist is not byte-identical for
source text that ends in a newline or that contains a CRLF line ending:
such text is rewritten strictly shorter (final newline dropped, CRLF
normalized to LF). -/
theorem C10_persist_joins_and_normalizes :
    (∀ s : App, save_output s = joinNl s.lines) ∧
    (∀ ls : List Line, ls ≠ [] →
      (joinNl ls).length + 1 = (ls.map List.length).sum + ls.length) ∧
    (∀ raw : Line, raw.getLast? = some '\n' →
      save_output (load_model raw) ≠ raw) ∧
    (∀ raw a b : Line, raw = a ++ '\r' :: '\n' :: b →
      save_output (load_model raw) ≠ raw) := by
  refine ⟨fun s => rfl, joinNl_length, ?_, ?_⟩
  · intro raw hlast
    have hne : raw ≠ [] := by
      intro h
      rw [h] at hlast
      cases hlast
    have hl : raw.getLast hne = '\n' := by
      have h1 := List.getLast?_eq_getLast raw hne
      rw [hlast] at h1
      injection h1 with h2
      exact h2.symm
    have hsplit : raw.dropLast ++ ['\n'] = raw := by
      rw [← hl]
      exact List.dropLast_append_getLast hne
    have hout : save_output (load_model raw) = joinNl (linesAux [] raw) := by
      rw [save_output, (load_model_doc raw).2]
      rfl
    have hlt : (joinNl (linesAux [] raw)).length < raw.length := by
      rw [← hsplit]
      have h2 := joinNl_linesAux_newline_lt raw.dropLast []
      simp only [List.length_nil, Nat.zero_add] at h2
      simpa [List.length_append] using h2
    intro heq
    rw [hout] at heq
    have := congrArg List.length heq
    omega
  · intro raw a b hsplit
    have hout : save_output (load_model raw) = joinNl (linesAux [] raw) := by
      rw [save_output, (load_model_doc raw).2]
      rfl
    have hlt : (joinNl (linesAux [] raw)).length < raw.length := by
      rw [hsplit]
      have h2 := joinNl_linesAux_crlf_lt a b []
      simp only [List.length_nil, Nat.zero_add] at h2
      simp only [List.length_append, List.length_cons]
      omega
    intro heq
    rw [hout] at heq
    have := congrArg List.length heq
    omega

/-- Witness for C10: `"hi\n"` is rewritten as `"hi"`; `"a\r\nb"` is
rewritten as `"a\nb"` (both shorter, hence not byte-identical). -/
theorem C10_persist_joins_and_normalizes_witness :
    save_output (load_model "hi\n".toList) ≠ "hi\n".toList ∧
    save_output (load_model "a\r\nb".toList) ≠ "a\r\nb".toList ∧
    (joinNl [['h', 'i'], ['x']]).length + 1 =
      ([['h', 'i'], ['x']].map List.length).sum + ([['h', 'i'], ['x']] : List Line).length :=
  ⟨(C10_persist_joins_and_normalizes.2.2.1 "hi\n".toList (by decide)),
   (C10_persist_joins_and_normalizes.2.2.2 "a\r\nb".toList "a".toList "b".toList (by decide)),
   (C10_persist_joins_and_normalizes.2.1 [['h', 'i'], ['x']] (by decide))⟩
